import Mathlib

/-! # USRL-MQ: benchmark server, load harness and monitoring observer

A shallow embedding of

* `src/benchmarks/bench_tcp_server.c` (`sighandler`, `sigchld_handler`,
  `handle_client`, the acceptor loop of `main`),
* `src/benchmarks/bench_tcp_mt.c` (`client_thread`, the aggregation of `main`),
* `src/tools/usrl_top.c` (`map_system`, the sampling loop of `main`).

Calls into the transport library and the operating system (`usrl_trans_recv`,
`usrl_trans_send`, `usrl_trans_accept`, `fork`, `waitpid`, `shm_open`, `read`,
`mmap`, `clock_gettime`, the atomic load of a ring head) are inputs: every
function below takes the results of those calls as an argument and the
theorems quantify over all of them.  `ssize_t`, `int` and `pid_t` values are
`Int`; `uint64_t` values are `Nat` with an explicit `% 2^64` where the C
operation wraps; `double` values are exact rationals.
-/

namespace USRL

/-! ## `bench_tcp_server.c`: the connection unit -/

/-- The constant `PAYLOAD_SIZE`, defined as 4096 in both benchmark files. -/
def PAYLOAD_SIZE : Int := 4096

/-- Contents of the `payload` buffer. -/
abbrev Buf := List Nat

/-- Results of the transport calls made on one connection: the `k`-th
`usrl_trans_recv` returns `(recv k).1` and leaves `(recv k).2` in the buffer,
the `k`-th `usrl_trans_send` returns `send k`. -/
structure ConnEnv where
  recv : Nat → Int × Buf
  send : Nat → Int

/-- Externally visible actions of a connection unit. -/
inductive Ev where
  | recv (ret : Int) (data : Buf)
  | send (data : Buf) (len : Int) (ret : Int)
  | free
  | destroy (h : Nat)
  | exit (code : Int)
  deriving DecidableEq, Repr

/-- Outcome of running a loop for a bounded number of iterations: the actions
performed and whether the loop has been left. -/
structure Run where
  trace : List Ev
  done : Bool
  deriving DecidableEq, Repr

/-- The `while (1)` loop of `handle_client`, iteration `k` onwards, observed
for at most `fuel` iterations. -/
def handle_client_loop (env : ConnEnv) : Nat → Nat → Run
  | 0, _ => { trace := [], done := false }
  | fuel + 1, k =>
    let n := (env.recv k).1
    let payload := (env.recv k).2
    if n = 0 then
      { trace := [Ev.recv n payload], done := true }
    else if n ≠ PAYLOAD_SIZE then
      { trace := [Ev.recv n payload], done := true }
    else
      let m := env.send k
      if m ≠ PAYLOAD_SIZE then
        { trace := [Ev.recv n payload, Ev.send payload PAYLOAD_SIZE m], done := true }
      else
        let r := handle_client_loop env fuel (k + 1)
        { trace := Ev.recv n payload :: Ev.send payload PAYLOAD_SIZE m :: r.trace,
          done := r.done }

/-- The three statements after the loop of `handle_client`:
`free(payload); usrl_trans_destroy(client); exit(0);`. -/
def closing (client : Nat) : List Ev := [Ev.free, Ev.destroy client, Ev.exit 0]

/-- The function `handle_client(client)` observed for at most `fuel` loop iterations. -/
def handle_client (env : ConnEnv) (client : Nat) (fuel : Nat) : Run :=
  let r := handle_client_loop env fuel 0
  if r.done then { trace := r.trace ++ closing client, done := true }
  else r

/-- Whether an action is a transport call (`recv` or `send`). -/
def Ev.isTransfer : Ev → Bool
  | Ev.recv _ _ => true
  | Ev.send _ _ _ => true
  | _ => false

/-- Whether an action is a `usrl_trans_recv` call. -/
def Ev.isRecv : Ev → Bool
  | Ev.recv _ _ => true
  | _ => false

/-- Iteration `j` of the echo loop is a full exchange: both transport calls
return exactly `PAYLOAD_SIZE`. -/
def ConnEnv.ok (env : ConnEnv) (j : Nat) : Prop :=
  (env.recv j).1 = PAYLOAD_SIZE ∧ env.send j = PAYLOAD_SIZE

/-- The actions of `c` consecutive loop iterations starting at iteration `i`
in which the record received is sent back: `recv`, then `send` of the buffer
that `recv` filled, with length `PAYLOAD_SIZE`. -/
def echo_trace (env : ConnEnv) : Nat → Nat → List Ev
  | _, 0 => []
  | i, c + 1 =>
    Ev.recv (env.recv i).1 (env.recv i).2 ::
      Ev.send (env.recv i).2 PAYLOAD_SIZE (env.send i) :: echo_trace env (i + 1) c

/-- The actions of a loop iteration `k` that leaves the loop: the `recv` alone
when its result is not `PAYLOAD_SIZE`, otherwise the `recv` and the `send`
whose result is not `PAYLOAD_SIZE`. -/
def last_iteration (env : ConnEnv) (k : Nat) : List Ev :=
  if (env.recv k).1 ≠ PAYLOAD_SIZE then [Ev.recv (env.recv k).1 (env.recv k).2]
  else [Ev.recv (env.recv k).1 (env.recv k).2,
        Ev.send (env.recv k).2 PAYLOAD_SIZE (env.send k)]

/-- Traces of the connection-unit machine `Active → Closing → Terminated` of
the specification (§4.3): while `Active` a record of the expected size is
received and echoed; a receive of any other size, or a send with any other
result, moves to `Closing`, where the handle is destroyed and the unit ends.
`active` is a unit observed while still `Active`. -/
inductive Shape (client : Nat) : List Ev → Prop where
  | active : Shape client []
  | echo (d : Buf) (t : List Ev) : Shape client t →
      Shape client (Ev.recv PAYLOAD_SIZE d :: Ev.send d PAYLOAD_SIZE PAYLOAD_SIZE :: t)
  | bad_recv (n : Int) (d : Buf) : n ≠ PAYLOAD_SIZE →
      Shape client (Ev.recv n d :: closing client)
  | bad_send (d : Buf) (r : Int) : r ≠ PAYLOAD_SIZE →
      Shape client (Ev.recv PAYLOAD_SIZE d :: Ev.send d PAYLOAD_SIZE r :: closing client)

/-- A connection on which one full record arrives and is echoed, after which
the peer closes: the second `recv` returns `0`. -/
def env_one_echo : ConnEnv :=
  { recv := fun k => if k = 0 then (4096, [1, 2, 3]) else (0, []),
    send := fun _ => 4096 }

/-! ## `bench_tcp_mt.c`: the harness worker -/

/-- The constant `BATCH_SIZE`, defined as 1000000. -/
def BATCH_SIZE : Nat := 1000000

/-- Results of the transport calls of one harness connection, by iteration. -/
structure ClientEnv where
  send : Nat → Int
  recv : Nat → Int

/-- Transport calls issued by the harness worker, with their results. -/
inductive CEv where
  | send (ret : Int)
  | recv (ret : Int)
  deriving DecidableEq, Repr

/-- State of the `for` loop of `client_thread`: the `count` variable and the
calls issued so far. -/
structure ClientRun where
  count : Int
  calls : List CEv
  deriving DecidableEq, Repr

/-- The loop `for (long i = ...; i < BATCH_SIZE; i++)` of `client_thread` with
`remaining` iterations left before `i` reaches the budget. -/
def client_loop (env : ClientEnv) : Nat → Nat → Int → ClientRun
  | 0, _, count => { count := count, calls := [] }
  | remaining + 1, i, count =>
    if env.send i ≠ PAYLOAD_SIZE then
      { count := count, calls := [CEv.send (env.send i)] }
    else if env.recv i ≠ PAYLOAD_SIZE then
      { count := count, calls := [CEv.send (env.send i), CEv.recv (env.recv i)] }
    else
      let r := client_loop env remaining (i + 1) (count + 1)
      { count := r.count,
        calls := CEv.send (env.send i) :: CEv.recv (env.recv i) :: r.calls }

/-- The record `struct ThreadStats`. -/
structure ThreadStats where
  count : Int
  elapsed : ℚ

/-- The worker `client_thread`: `connected = false` is the `!client` early return, which
leaves `*args->stats` unwritten (`none`); otherwise the loop runs with the
budget `BATCH_SIZE` and the count and the measured time are stored. -/
def client_thread (env : ClientEnv) (connected : Bool) (elapsed : ℚ) :
    Option (ThreadStats × List CEv) :=
  if !connected then none
  else
    let r := client_loop env BATCH_SIZE 0 0
    some ({ count := r.count, elapsed := elapsed }, r.calls)

/-- Iteration `j` of the harness loop is a full exchange: the send and the
receive both return exactly `PAYLOAD_SIZE`. -/
def ClientEnv.ok (env : ClientEnv) (j : Nat) : Prop :=
  env.send j = PAYLOAD_SIZE ∧ env.recv j = PAYLOAD_SIZE

/-- The calls of `c` consecutive full iterations starting at iteration `i`. -/
def exchanges (env : ClientEnv) : Nat → Nat → List CEv
  | _, 0 => []
  | i, c + 1 => CEv.send (env.send i) :: CEv.recv (env.recv i) :: exchanges env (i + 1) c

/-- The calls of an iteration `j` that is not a full exchange: the send alone
when it is short, otherwise the send and the short receive. -/
def short_transfer (env : ClientEnv) (j : Nat) : List CEv :=
  if env.send j ≠ PAYLOAD_SIZE then [CEv.send (env.send j)]
  else [CEv.send (env.send j), CEv.recv (env.recv j)]

/-- A harness connection whose third response is short (100 bytes). -/
def env_short_third : ClientEnv :=
  { send := fun _ => 4096, recv := fun i => if i = 2 then 100 else 4096 }

/-- Two's-complement value of a C `long` (64 bits) holding the integer `x`. -/
def wrapLong (x : Int) : Int := (x + 2 ^ 63) % 2 ^ 64 - 2 ^ 63

/-- The three accumulators of the aggregation loop in `main`. -/
structure Agg where
  total_req : Int
  total_bw : ℚ
  max_time : ℚ

/-- Body of the aggregation loop of `main` for one `stats[i]`.  The products
`count * PAYLOAD_SIZE` and the sum `total_req += count` are `long` operations;
the multiplication by `8.0` and everything after it is `double`.  The local
`rate` is computed and never used. -/
def aggregate_step (a : Agg) (s : ThreadStats) : Agg :=
  let _rate : ℚ := (s.count : ℚ) / s.elapsed
  let mbps : ℚ := ((wrapLong (s.count * PAYLOAD_SIZE) : ℚ) * 8) / (s.elapsed * 1000000)
  { total_req := wrapLong (a.total_req + s.count),
    total_bw := a.total_bw + mbps,
    max_time := if s.elapsed > a.max_time then s.elapsed else a.max_time }

/-- The aggregation loop of `main` over `stats[0 .. num_threads-1]`, from
`total_req = 0`, `total_bw = 0`, `max_time = 0`. -/
def aggregate (stats : List ThreadStats) : Agg :=
  stats.foldl aggregate_step { total_req := 0, total_bw := 0, max_time := 0 }

/-- The assignment `real_agg_bw = (total_req * PAYLOAD_SIZE * 8.0) / (max_time * 1e6)`. -/
def real_agg_bw (a : Agg) : ℚ :=
  ((wrapLong (a.total_req * PAYLOAD_SIZE) : ℚ) * 8) / (a.max_time * 1000000)

/-- The assignment `real_req_rate = total_req / max_time`. -/
def real_req_rate (a : Agg) : ℚ := (a.total_req : ℚ) / a.max_time

/-- Four participants that each completed the whole budget, with elapsed times
`2`, `5/2`, `3` and `9/4` seconds. -/
def stats_four : List ThreadStats :=
  [{ count := 1000000, elapsed := 2 }, { count := 1000000, elapsed := 5 / 2 },
   { count := 1000000, elapsed := 3 }, { count := 1000000, elapsed := 9 / 4 }]

/-! ## `bench_tcp_server.c`: reaping -/

/-- Children of the acceptor as `waitpid` sees them, and the acceptor's
`errno`: `zombies` are the finished, not yet reaped units, `live` the units
still running. -/
structure Proc where
  zombies : List Int
  live : List Int
  errno : Int
  deriving DecidableEq, Repr

/-- Result of a call that may block, observed for a bounded number of steps. -/
inductive Outcome (α : Type) where
  | returned (a : α)
  | blocked
  | unfinished
  deriving DecidableEq, Repr

/-- The call `waitpid(-1, NULL, options)` as POSIX specifies it: a finished child, if
there is one, is reaped and its (positive) pid returned; with no child at all
the call fails with `-1`; with only running children it returns `0` under
`WNOHANG` and blocks otherwise.  `e` is the value the call leaves in `errno`. -/
def waitpid (wnohang : Bool) (e : Int) (p : Proc) : Option (Int × Proc) :=
  match p.zombies with
  | z :: zs => some (z, { p with zombies := zs, errno := e })
  | [] =>
    if p.live = [] then some (-1, { p with errno := e })
    else if wnohang then some (0, { p with errno := e })
    else none

/-- The loop `while (waitpid(-1, NULL, WNOHANG) > 0) ;` where the `k`-th call leaves
`errs k` in `errno`. -/
def reap_loop (errs : Nat → Int) : Nat → Nat → Proc → Outcome Proc
  | 0, _, _ => Outcome.unfinished
  | fuel + 1, k, p =>
    match waitpid true (errs k) p with
    | none => Outcome.blocked
    | some (r, p') => if r > 0 then reap_loop errs fuel (k + 1) p' else Outcome.returned p'

/-- The handler `sigchld_handler`: save `errno`, drain, restore `errno`. -/
def sigchld_handler (errs : Nat → Int) (fuel : Nat) (p : Proc) : Outcome Proc :=
  let saved_errno := p.errno
  match reap_loop errs fuel 0 p with
  | Outcome.returned p' => Outcome.returned { p' with errno := saved_errno }
  | Outcome.blocked => Outcome.blocked
  | Outcome.unfinished => Outcome.unfinished

/-! ## `bench_tcp_server.c`: the acceptor -/

/-- Actions of the process executing `main`, and the signals delivered to it.
`kill recipients` is `kill(0, SIGTERM)`: the signal goes to the caller's
process group, `recipients` being the connection units in it. -/
inductive SEv where
  | stop
  | test (running : Bool)
  | accept_call
  | accept_ret (rc : Int) (client : Option Nat)
  | fork (client : Nat) (pid : Int)
  | destroy (h : Nat)
  | perror
  | unit (e : Ev)
  | unit_done (pid : Int)
  | shutting_down
  | kill (recipients : List Int)
  | ret (code : Int)
  deriving DecidableEq, Repr

/-- Program points of `main` from the acceptor loop onwards. -/
inductive Pc where
  | test
  | accept_call
  | accept_wait
  | fork (client : Nat)
  | in_unit (client : Nat)
  | shutdown
  | kill
  | returned
  deriving DecidableEq, Repr

/-- State of the process executing `main`: the `running` flag, the program
point and the connection units forked and not yet finished. -/
structure Srv where
  running : Bool
  pc : Pc
  units : List Int
  deriving DecidableEq, Repr

/-- What happens next.  `stop` is the delivery of SIGINT or SIGTERM (the
handler `sighandler` runs), `unit_done pid` is the completion of a connection
unit, `step` lets the process execute its next statement, `rc`/`client` being
the result of `usrl_trans_accept` and `pid` the result of `fork` when that
statement is the call; `unit_run` lets a process that is a connection unit run
`handle_client` against the given transport results. -/
inductive Inp where
  | stop
  | unit_done (pid : Int)
  | step (rc : Int) (client : Option Nat) (pid : Int)
  | unit_run (env : ConnEnv) (fuel : Nat)

/-- The handler `sighandler`: `running = 0;`. -/
def sighandler (s : Srv) : Srv := { s with running := false }

/-- One transition of the process executing `main` (lines 101-130), with the
actions it performs.  `server` is the listening handle. -/
def step (server : Nat) (s : Srv) : Inp → Srv × List SEv
  | Inp.stop => (sighandler s, [SEv.stop])
  | Inp.unit_done pid =>
    if pid ∈ s.units then ({ s with units := s.units.erase pid }, [SEv.unit_done pid])
    else (s, [])
  | Inp.unit_run env fuel =>
    match s.pc with
    | Pc.in_unit client =>
      let r := handle_client env client fuel
      if r.done then ({ s with pc := Pc.returned }, r.trace.map SEv.unit) else (s, [])
    | _ => (s, [])
  | Inp.step rc client pid =>
    match s.pc with
    | Pc.test =>
      if s.running then ({ s with pc := Pc.accept_call }, [SEv.test true])
      else ({ s with pc := Pc.shutdown }, [SEv.test false])
    | Pc.accept_call => ({ s with pc := Pc.accept_wait }, [SEv.accept_call])
    | Pc.accept_wait =>
      match client with
      | some c =>
        if rc = 0 then ({ s with pc := Pc.fork c }, [SEv.accept_ret rc client])
        else ({ s with pc := Pc.test }, [SEv.accept_ret rc client])
      | none => ({ s with pc := Pc.test }, [SEv.accept_ret rc client])
    | Pc.fork c =>
      if pid = 0 then
        ({ s with pc := Pc.in_unit c }, [SEv.fork c pid])
      else if pid > 0 then
        ({ s with pc := Pc.test, units := s.units ++ [pid] }, [SEv.fork c pid, SEv.destroy c])
      else
        ({ s with pc := Pc.test }, [SEv.fork c pid, SEv.perror])
    | Pc.in_unit _ => (s, [])
    | Pc.shutdown => ({ s with pc := Pc.kill }, [SEv.shutting_down, SEv.destroy server])
    | Pc.kill => ({ s with pc := Pc.returned }, [SEv.kill s.units, SEv.ret 0])
    | Pc.returned => (s, [])

/-- Actions performed from state `s` under the schedule `inps`. -/
def run (server : Nat) : Srv → List Inp → List SEv
  | _, [] => []
  | s, i :: inps => (step server s i).2 ++ run server (step server s i).1 inps

/-- State of `main` on entering `while (running)`: `running = 1`, no unit. -/
def Srv.init : Srv := { running := true, pc := Pc.test, units := [] }

/-- Units alive after the actions `tr`, starting from the units `us`: a
successful `fork` seen from the acceptor adds one, a completion removes it. -/
def liveUnits : List Int → List SEv → List Int
  | us, [] => us
  | us, SEv.fork _ pid :: tr => if pid > 0 then liveUnits (us ++ [pid]) tr else liveUnits us tr
  | us, SEv.unit_done pid :: tr => liveUnits (us.erase pid) tr
  | us, _ :: tr => liveUnits us tr

/-- A schedule in which the stop signal arrives after the loop test has read
`running = 1` and before `usrl_trans_accept` is called. -/
def sched_race : List Inp :=
  [Inp.step 0 none 0, Inp.stop, Inp.step 0 none 0]

/-- A schedule with one connection (handle `7`, unit `55`), then a stop signal
while the acceptor waits in the next `usrl_trans_accept`, which fails; the
loop test then reads `running = 0` and `main` runs to its end. -/
def sched_graceful : List Inp :=
  [Inp.step 0 none 0, Inp.step 0 none 0, Inp.step 0 (some 7) 0, Inp.step 0 none 55,
   Inp.step 0 none 0, Inp.step 0 none 0, Inp.stop, Inp.step (-1) none 0,
   Inp.step 0 none 0, Inp.step 0 none 0, Inp.step 0 none 0]

/-- A schedule in which `usrl_trans_accept` returns the handle `7`, `fork`
fails with `-1`, and the acceptor goes on to its next accept. -/
def sched_fork_fails : List Inp :=
  [Inp.step 0 none 0, Inp.step 0 none 0, Inp.step 0 (some 7) 0, Inp.step 0 none (-1),
   Inp.step 0 none 0, Inp.step 0 none 0]

/-- Program points inside `while (running) { ... }`. -/
def Pc.inLoop : Pc → Bool
  | Pc.test => true
  | Pc.accept_call => true
  | Pc.accept_wait => true
  | Pc.fork _ => true
  | _ => false

/-- Number of `usrl_trans_accept` calls issued in a trace. -/
def acceptCalls (tr : List SEv) : Nat := tr.count SEv.accept_call

/-! ## `usrl_top.c`: the observer -/

/-- The fields of `CoreHeader` (`usrl_core.h`) that `usrl_top.c` uses. -/
structure CoreHeader where
  mmap_size : Nat
  topic_table_offset : Nat
  topic_count : Nat
  deriving DecidableEq, Repr

/-- Sizes and field offsets fixed by `usrl_core.h` and `usrl_ring.h`:
`sizeof(CoreHeader)`, `sizeof(TopicEntry)`, the offsets of
`TopicEntry.ring_desc_offset`, `TopicEntry.slot_size` and `RingDesc.w_head`,
and the sizes of the fields `ring_desc_offset` and `w_head`. -/
structure Layout where
  hdr_size : Nat
  entry_size : Nat
  off_ring_desc : Nat
  off_slot_size : Nat
  off_w_head : Nat
  sz_ring_desc : Nat
  sz_w_head : Nat
  deriving DecidableEq, Repr

/-- A successful mapping: the number `len` of bytes accessible from `base`,
the header found at `base`, and the value of the field found at `base + off`
for the plain (non-atomic) loads at offsets inside the mapping. -/
structure Mapping where
  len : Nat
  hdr : CoreHeader
  mem : Nat → Nat

/-- Whether the `sz` bytes at `base + off` lie inside the mapping.  A load
outside it is undefined in C and delivers SIGSEGV to the observer. -/
def Mapping.inside (m : Mapping) (off sz : Nat) : Bool := off + sz ≤ m.len

/-- The ways `main` of `usrl_top.c` ends before its sampling loop: `return 1`
after a failed `map_system`, or a fault on a load at an offset outside the
mapping. -/
inductive InitError where
  | exit (code : Int)
  | segv (off : Nat)
  deriving DecidableEq, Repr

/-- Results of the system calls of `map_system`: `shm_open`, `read` (its
return value and the header bytes it delivered) and `mmap` as a function of
the requested length (`none` is `MAP_FAILED`). -/
structure ShmEnv where
  fd : Int
  read_ret : Int
  hdr : CoreHeader
  mmap : Nat → Option Mapping

/-- The function `map_system`; `NULL` is `none`. -/
def map_system (L : Layout) (env : ShmEnv) : Option Mapping :=
  if env.fd < 0 then none
  else if env.read_ret ≠ (L.hdr_size : Int) then none
  else env.mmap env.hdr.mmap_size

/-- The record `TopicStats`. -/
structure TopicStats where
  last_head : Nat
  current_head : Nat
  rate_hz : ℚ
  bw_kbs : ℚ
  fill_pct : Int
  deriving DecidableEq, Repr

/-- A `calloc`ed `TopicStats`. -/
def TopicStats.zero : TopicStats :=
  { last_head := 0, current_head := 0, rate_hz := 0, bw_kbs := 0, fill_pct := 0 }

/-- Offset of `topics[i]` from `base`. -/
def entry_off (L : Layout) (m : Mapping) (i : Nat) : Nat :=
  m.hdr.topic_table_offset + i * L.entry_size

/-- Offset of `r->w_head` from `base` for topic `i`, where
`r = base + topics[i].ring_desc_offset`. -/
def w_head_off (L : Layout) (m : Mapping) (i : Nat) : Nat :=
  m.mem (entry_off L m i + L.off_ring_desc) + L.off_w_head

/-- The loop "Initialize heads" of `main` for `i < n`; `load off` is the result
of the atomic load at `base + off`. -/
def init_heads (L : Layout) (m : Mapping) (load : Nat → Nat) :
    Nat → (Nat → TopicStats) → (Nat → TopicStats)
  | 0, stats => stats
  | n + 1, stats =>
    let st := init_heads L m load n stats
    Function.update st n { st n with last_head := load (w_head_off L m n) }

/-- Offsets from `base` that the loop "Initialize heads" reads, in order: for
each topic its table entry (`topics[i].ring_desc_offset`) and then the head of
its ring descriptor. -/
def init_reads (L : Layout) (m : Mapping) : Nat → List Nat
  | 0 => []
  | n + 1 => init_reads L m n ++ [entry_off L m n + L.off_ring_desc, w_head_off L m n]

/-- State of the observer between two iterations of `while (1)`. -/
structure Obs where
  stats : Nat → TopicStats
  last_time : Nat

/-- The first load of the loop "Initialize heads" for `i < n`, in program
order, that falls outside the mapping: for each topic first the load of
`topics[i].ring_desc_offset`, then the load of `r->w_head`. -/
def init_fault (L : Layout) (m : Mapping) : Nat → Option Nat
  | 0 => none
  | n + 1 =>
    match init_fault L m n with
    | some off => some off
    | none =>
      if !m.inside (entry_off L m n + L.off_ring_desc) L.sz_ring_desc then
        some (entry_off L m n + L.off_ring_desc)
      else if !m.inside (w_head_off L m n) L.sz_w_head then
        some (w_head_off L m n)
      else none

/-- The function `main` of `usrl_top.c` up to `last_time = time_ms()`:
`return 1` when `map_system` fails; a fault when the header at `base` or a
load of the loop "Initialize heads" lies outside the mapping (the loop stops
at the first such load); otherwise the mapping, the loads made and the
initial observer state. -/
def main_init (L : Layout) (env : ShmEnv) (load : Nat → Nat) (t0 : Nat) :
    Except InitError (Mapping × List Nat × Obs) :=
  match map_system L env with
  | none => Except.error (InitError.exit 1)
  | some m =>
    if !m.inside 0 L.hdr_size then Except.error (InitError.segv 0)
    else
      match init_fault L m m.hdr.topic_count with
      | some off => Except.error (InitError.segv off)
      | none =>
        Except.ok (m, init_reads L m m.hdr.topic_count,
          { stats := init_heads L m load m.hdr.topic_count (fun _ => TopicStats.zero),
            last_time := t0 })

/-- Subtraction of two `uint64_t` values. -/
def sub_u64 (a b : Nat) : Nat := (a + 2 ^ 64 - b % 2 ^ 64) % 2 ^ 64

/-- The statements `double dt = (now - last_time) / 1000.0; if (dt <= 0) dt = 0.001;`. -/
def interval (now last_time : Nat) : ℚ :=
  let dt : ℚ := (sub_u64 now last_time : ℚ) / 1000
  if dt ≤ 0 then 1 / 1000 else dt

/-- The statement `uint64_t diff = head - stats[i].last_head;`. -/
def head_diff (head : Nat) (s : TopicStats) : Nat := sub_u64 head s.last_head

/-- Body of the loop "Update Stats" for one topic. -/
def update_topic (dt : ℚ) (slot : Nat) (head : Nat) (s : TopicStats) : TopicStats :=
  let diff := head_diff head s
  let rate_hz : ℚ := (diff : ℚ) / dt
  { s with
    rate_hz := rate_hz,
    bw_kbs := (rate_hz * (slot : ℚ)) / 1024,
    last_head := head,
    current_head := head }

/-- A layout used in the examples: a 64-byte header, 80-byte table entries with
an 8-byte `ring_desc_offset` at 64 and `slot_size` at 72, an 8-byte `w_head`
first in `RingDesc`. -/
def layout_ex : Layout :=
  { hdr_size := 64, entry_size := 80, off_ring_desc := 64, off_slot_size := 72,
    off_w_head := 0, sz_ring_desc := 8, sz_w_head := 8 }

/-- A header that breaks the table bound: the table of two 80-byte entries
starts at offset 4096 of a 4096-byte mapping. -/
def hdr_corrupt : CoreHeader :=
  { mmap_size := 4096, topic_table_offset := 4096, topic_count := 2 }

/-- System-call results for a segment with the header `hdr_corrupt`: all three
calls succeed and 4096 bytes are mapped. -/
def shm_corrupt : ShmEnv :=
  { fd := 3, read_ret := 64, hdr := hdr_corrupt,
    mmap := fun _ => some { len := 4096, hdr := hdr_corrupt, mem := fun _ => 0 } }

/-- System-call results when the segment does not exist: `shm_open` fails. -/
def shm_missing : ShmEnv :=
  { fd := -1, read_ret := 0, hdr := { mmap_size := 0, topic_table_offset := 0, topic_count := 0 },
    mmap := fun _ => none }

/-- A process with three finished units, one running unit and `errno = 4`. -/
def proc_ex : Proc := { zombies := [101, 102, 103], live := [104], errno := 4 }

end USRL

/-! # Theorems -/

namespace USRL

/-! ## The connection unit (`handle_client`) -/

theorem handle_client_loop_bad_recv (env : ConnEnv) (fuel k : Nat)
    (h : (env.recv k).1 ≠ PAYLOAD_SIZE) :
    handle_client_loop env (fuel + 1) k =
      { trace := [Ev.recv (env.recv k).1 (env.recv k).2], done := true } := by
  unfold handle_client_loop
  by_cases h0 : (env.recv k).1 = 0
  · simp [h0]
  · simp [h0, h]

theorem handle_client_loop_bad_send (env : ConnEnv) (fuel k : Nat)
    (h : (env.recv k).1 = PAYLOAD_SIZE) (hs : env.send k ≠ PAYLOAD_SIZE) :
    handle_client_loop env (fuel + 1) k =
      { trace := [Ev.recv PAYLOAD_SIZE (env.recv k).2,
                  Ev.send (env.recv k).2 PAYLOAD_SIZE (env.send k)], done := true } := by
  have h0 : (env.recv k).1 ≠ 0 := by rw [h]; decide
  unfold handle_client_loop
  simp [h0, hs]
  simp [h]

theorem handle_client_loop_echo (env : ConnEnv) (fuel k : Nat)
    (h : (env.recv k).1 = PAYLOAD_SIZE) (hs : env.send k = PAYLOAD_SIZE) :
    handle_client_loop env (fuel + 1) k =
      { trace := Ev.recv PAYLOAD_SIZE (env.recv k).2 ::
                 Ev.send (env.recv k).2 PAYLOAD_SIZE PAYLOAD_SIZE ::
                 (handle_client_loop env fuel (k + 1)).trace,
        done := (handle_client_loop env fuel (k + 1)).done } := by
  have h0 : (env.recv k).1 ≠ 0 := by rw [h]; decide
  rw [handle_client_loop]
  simp [h0, hs]
  simp [h]

theorem handle_client_loop_shape (env : ConnEnv) (client : Nat) (fuel : Nat) :
    ∀ k, Shape client
      (if (handle_client_loop env fuel k).done
        then (handle_client_loop env fuel k).trace ++ closing client
        else (handle_client_loop env fuel k).trace) := by
  induction fuel with
  | zero => intro k; simp [handle_client_loop]; exact Shape.active
  | succ fuel ih =>
    intro k
    by_cases hP : (env.recv k).1 = PAYLOAD_SIZE
    · by_cases hS : env.send k = PAYLOAD_SIZE
      · have := ih (k + 1)
        rw [handle_client_loop_echo env fuel k hP hS]
        by_cases hd : (handle_client_loop env fuel (k + 1)).done = true
        · simp only [hd, if_true] at this ⊢
          exact Shape.echo _ _ this
        · simp only [hd] at this ⊢
          exact Shape.echo _ _ this
      · rw [handle_client_loop_bad_send env fuel k hP hS]
        exact Shape.bad_send _ _ hS
    · rw [handle_client_loop_bad_recv env fuel k hP]
      exact Shape.bad_recv _ _ hP

theorem handle_client_shape (env : ConnEnv) (client : Nat) (fuel : Nat) :
    Shape client (handle_client env client fuel).trace := by
  have h := handle_client_loop_shape env client fuel 0
  unfold handle_client
  by_cases hd : (handle_client_loop env fuel 0).done
  · simpa [hd] using h
  · simpa [hd] using h

theorem Shape.send_after_recv {client : Nat} {T : List Ev} (h : Shape client T) :
    ∀ pre d len ret post, T = pre ++ Ev.send d len ret :: post →
      len = PAYLOAD_SIZE ∧ ∃ pre', pre = pre' ++ [Ev.recv PAYLOAD_SIZE d] := by
  induction h with
  | active => intro pre d len ret post h; simp at h
  | echo d0 t _ ih =>
    intro pre d len ret post h
    match pre, h with
    | [], h => simp at h
    | [a], h =>
      simp at h
      obtain ⟨rfl, ⟨rfl, rfl, rfl⟩, _⟩ := h
      exact ⟨rfl, [], rfl⟩
    | a :: b :: pre2, h =>
      simp at h
      obtain ⟨rfl, rfl, h⟩ := h
      obtain ⟨hl, pre', rfl⟩ := ih pre2 d len ret post h
      exact ⟨hl, Ev.recv PAYLOAD_SIZE d0 :: Ev.send d0 PAYLOAD_SIZE PAYLOAD_SIZE :: pre', by simp⟩
  | bad_recv n d0 _ =>
    intro pre d len ret post h
    have hm : Ev.send d len ret ∈ Ev.recv n d0 :: closing client := by rw [h]; simp
    simp [closing] at hm
  | bad_send d0 r _ =>
    intro pre d len ret post h
    match pre, h with
    | [], h => simp at h
    | [a], h =>
      simp at h
      obtain ⟨rfl, ⟨rfl, rfl, rfl⟩, _⟩ := h
      exact ⟨rfl, [], rfl⟩
    | a :: b :: pre2, h =>
      simp at h
      have hm : Ev.send d len ret ∈ closing client := by rw [h.2.2]; simp
      simp [closing] at hm

theorem Shape.after_bad_recv {client : Nat} {T : List Ev} (h : Shape client T) :
    ∀ pre n d post, T = pre ++ Ev.recv n d :: post → n ≠ PAYLOAD_SIZE →
      post = closing client := by
  induction h with
  | active => intro pre n d post h; simp at h
  | echo d0 t _ ih =>
    intro pre n d post h hn
    match pre, h with
    | [], h => simp at h; exact absurd h.1.1.symm hn
    | [a], h => simp at h
    | a :: b :: pre2, h =>
      simp at h
      exact ih pre2 n d post h.2.2 hn
  | bad_recv n0 d0 _ =>
    intro pre n d post h hn
    match pre, h with
    | [], h => simp at h; exact h.2.symm
    | a :: pre1, h =>
      simp at h
      have hm : Ev.recv n d ∈ closing client := by rw [h.2]; simp
      simp [closing] at hm
  | bad_send d0 r _ =>
    intro pre n d post h hn
    match pre, h with
    | [], h => simp at h; exact absurd h.1.1.symm hn
    | [a], h => simp at h
    | a :: b :: pre2, h =>
      simp at h
      have hm : Ev.recv n d ∈ closing client := by rw [h.2.2]; simp
      simp [closing] at hm

theorem Shape.after_bad_send {client : Nat} {T : List Ev} (h : Shape client T) :
    ∀ pre d len ret post, T = pre ++ Ev.send d len ret :: post → ret ≠ PAYLOAD_SIZE →
      post = closing client := by
  induction h with
  | active => intro pre d len ret post h; simp at h
  | echo d0 t _ ih =>
    intro pre d len ret post h hn
    match pre, h with
    | [], h => simp at h
    | [a], h => simp at h; exact absurd h.2.1.2.2.symm hn
    | a :: b :: pre2, h =>
      simp at h
      exact ih pre2 d len ret post h.2.2 hn
  | bad_recv n0 d0 _ =>
    intro pre d len ret post h hn
    have hm : Ev.send d len ret ∈ Ev.recv n0 d0 :: closing client := by rw [h]; simp
    simp [closing] at hm
  | bad_send d0 r _ =>
    intro pre d len ret post h hn
    match pre, h with
    | [], h => simp at h
    | [a], h => simp at h; exact h.2.2.symm
    | a :: b :: pre2, h =>
      simp at h
      have hm : Ev.send d len ret ∈ closing client := by rw [h.2.2]; simp
      simp [closing] at hm

theorem handle_client_loop_transfers (env : ConnEnv) (fuel : Nat) :
    ∀ k, ∀ e ∈ (handle_client_loop env fuel k).trace, e.isTransfer = true := by
  induction fuel with
  | zero => intro k e he; simp [handle_client_loop] at he
  | succ fuel ih =>
    intro k e he
    by_cases hP : (env.recv k).1 = PAYLOAD_SIZE
    · by_cases hS : env.send k = PAYLOAD_SIZE
      · rw [handle_client_loop_echo env fuel k hP hS] at he
        simp at he
        rcases he with rfl | rfl | he
        · rfl
        · rfl
        · exact ih (k + 1) e he
      · rw [handle_client_loop_bad_send env fuel k hP hS] at he
        simp at he
        rcases he with rfl | rfl <;> rfl
    · rw [handle_client_loop_bad_recv env fuel k hP] at he
      simp at he
      subst he
      rfl

theorem handle_client_loop_leaves (env : ConnEnv) (n : Nat) :
    ∀ k fuel, (∀ j, k ≤ j → j < k + n → env.ok j) → ¬ env.ok (k + n) → n < fuel →
      (handle_client_loop env fuel k).done = true ∧
      ((handle_client_loop env fuel k).trace.filter Ev.isRecv).length = n + 1 ∧
      (handle_client_loop env fuel k).trace =
        echo_trace env k n ++ last_iteration env (k + n) := by
  induction n with
  | zero =>
    intro k fuel _ hbad hf
    obtain ⟨f, rfl⟩ : ∃ f, fuel = f + 1 := ⟨fuel - 1, by omega⟩
    simp only [Nat.add_zero, ConnEnv.ok, not_and_or] at hbad
    by_cases hP : (env.recv k).1 = PAYLOAD_SIZE
    · have hS : env.send k ≠ PAYLOAD_SIZE := by
        rcases hbad with h | h
        · exact absurd hP h
        · exact h
      rw [handle_client_loop_bad_send env f k hP hS]
      simp [Ev.isRecv, echo_trace, last_iteration, hP]
    · rw [handle_client_loop_bad_recv env f k hP]
      simp [Ev.isRecv, echo_trace, last_iteration, hP]
  | succ n ih =>
    intro k fuel hok hbad hf
    obtain ⟨f, rfl⟩ : ∃ f, fuel = f + 1 := ⟨fuel - 1, by omega⟩
    have hk := hok k (le_refl k) (by omega)
    rw [handle_client_loop_echo env f k hk.1 hk.2]
    have h := ih (k + 1) f (fun j h1 h2 => hok j (by omega) (by omega))
      (by rw [show k + 1 + n = k + (n + 1) by omega]; exact hbad) (by omega)
    refine ⟨h.1, ?_, ?_⟩
    · simp [Ev.isRecv, h.2.1]
    · simp only [h.2.2, echo_trace, hk.1, hk.2, List.cons_append]
      rw [show k + 1 + n = k + (n + 1) by omega]

theorem handle_client_loop_stays (env : ConnEnv) (fuel : Nat) :
    ∀ k, (∀ j, k ≤ j → j < k + fuel → env.ok j) →
      (handle_client_loop env fuel k).done = false ∧
      (handle_client_loop env fuel k).trace = echo_trace env k fuel := by
  induction fuel with
  | zero => intro k _; exact ⟨rfl, rfl⟩
  | succ fuel ih =>
    intro k hok
    have hk := hok k (le_refl k) (by omega)
    rw [handle_client_loop_echo env fuel k hk.1 hk.2]
    have h := ih (k + 1) (fun j h1 h2 => hok j (by omega) (by omega))
    exact ⟨h.1, by simp only [h.2, echo_trace, hk.1, hk.2]⟩

theorem Shape.send_follows_recv {client : Nat} {T : List Ev} (h : Shape client T) :
    ∀ pre d post, T = pre ++ Ev.recv PAYLOAD_SIZE d :: post →
      ∃ r post', post = Ev.send d PAYLOAD_SIZE r :: post' := by
  induction h with
  | active => intro pre d post h; simp at h
  | echo d0 t _ ih =>
    intro pre d post h
    match pre, h with
    | [], h =>
      simp only [List.nil_append, List.cons.injEq, Ev.recv.injEq, true_and] at h
      obtain ⟨rfl, rfl⟩ := h
      exact ⟨PAYLOAD_SIZE, t, rfl⟩
    | [a], h => simp at h
    | a :: b :: pre2, h =>
      simp only [List.cons_append, List.cons.injEq] at h
      exact ih pre2 d post h.2.2
  | bad_recv n d0 hn =>
    intro pre d post h
    match pre, h with
    | [], h =>
      simp only [List.nil_append, List.cons.injEq, Ev.recv.injEq] at h
      exact absurd h.1.1 hn
    | a :: pre1, h =>
      simp only [List.cons_append, List.cons.injEq] at h
      have hm : Ev.recv PAYLOAD_SIZE d ∈ closing client := by rw [h.2]; simp
      simp [closing] at hm
  | bad_send d0 r _ =>
    intro pre d post h
    match pre, h with
    | [], h =>
      simp only [List.nil_append, List.cons.injEq, Ev.recv.injEq, true_and] at h
      obtain ⟨rfl, rfl⟩ := h
      exact ⟨r, closing client, rfl⟩
    | [a], h => simp at h
    | a :: b :: pre2, h =>
      simp only [List.cons_append, List.cons.injEq] at h
      have hm : Ev.recv PAYLOAD_SIZE d ∈ closing client := by rw [h.2.2]; simp
      simp [closing] at hm

/-- C1: `handle_client` is the `Active → Closing → Terminated` machine, for all
results of `recv` and `send` and every length of observation.  (1) Every
`send` comes immediately after a `recv` that returned exactly `PAYLOAD_SIZE`,
sends the buffer that `recv` filled and has length `PAYLOAD_SIZE`.  (2) After a
`recv` whose result is not `PAYLOAD_SIZE` (so also `0`) and (3) after a `send`
whose result is not `PAYLOAD_SIZE`, nothing follows but `free`, the destroy of
the handle and `exit(0)`.  (4) Every `recv` that returned exactly
`PAYLOAD_SIZE` is immediately followed by a `send` of the buffer it filled,
with length `PAYLOAD_SIZE`: each full record is echoed.  (5) The trace is
transport calls only, followed, iff the loop was left, by exactly that closing
sequence, so the handle is destroyed once when the loop is left and never
before.  (6) If iteration `k` is the first with a result other than
`PAYLOAD_SIZE`, any observation longer than `k` iterations sees the loop left
after exactly `k + 1` `recv` calls, and the whole trace is `k` echoes, the
calls of iteration `k` up to the failing one, and the closing sequence.
(7) While every result is `PAYLOAD_SIZE` the unit stays in its loop and its
trace is one echo per iteration. -/
theorem handle_client_machine (env : ConnEnv) (client fuel : Nat) :
    (∀ pre d len ret post,
      (handle_client env client fuel).trace = pre ++ Ev.send d len ret :: post →
        len = PAYLOAD_SIZE ∧ ∃ pre', pre = pre' ++ [Ev.recv PAYLOAD_SIZE d]) ∧
    (∀ pre n d post,
      (handle_client env client fuel).trace = pre ++ Ev.recv n d :: post →
        n ≠ PAYLOAD_SIZE → post = closing client) ∧
    (∀ pre d len ret post,
      (handle_client env client fuel).trace = pre ++ Ev.send d len ret :: post →
        ret ≠ PAYLOAD_SIZE → post = closing client) ∧
    (∀ pre d post,
      (handle_client env client fuel).trace = pre ++ Ev.recv PAYLOAD_SIZE d :: post →
        ∃ r post', post = Ev.send d PAYLOAD_SIZE r :: post') ∧
    (∃ body, (∀ e ∈ body, e.isTransfer = true) ∧
      (handle_client env client fuel).trace =
        body ++ (if (handle_client env client fuel).done then closing client else []) ∧
      (handle_client env client fuel).trace.count (Ev.destroy client) =
        (if (handle_client env client fuel).done then 1 else 0)) ∧
    (∀ k, (∀ j, j < k → env.ok j) → ¬ env.ok k → k < fuel →
      (handle_client env client fuel).done = true ∧
      ((handle_client env client fuel).trace.filter Ev.isRecv).length = k + 1 ∧
      (handle_client env client fuel).trace =
        echo_trace env 0 k ++ last_iteration env k ++ closing client) ∧
    ((∀ j, j < fuel → env.ok j) →
      (handle_client env client fuel).done = false ∧
      (handle_client env client fuel).trace = echo_trace env 0 fuel) := by
  have hs := handle_client_shape env client fuel
  refine ⟨hs.send_after_recv, hs.after_bad_recv, hs.after_bad_send, hs.send_follows_recv,
    ?_, ?_, ?_⟩
  · refine ⟨(handle_client_loop env fuel 0).trace, handle_client_loop_transfers env fuel 0, ?_⟩
    have hc : (handle_client_loop env fuel 0).trace.count (Ev.destroy client) = 0 := by
      rw [List.count_eq_zero]
      intro hm
      have := handle_client_loop_transfers env fuel 0 _ hm
      simp [Ev.isTransfer] at this
    unfold handle_client
    by_cases hd : (handle_client_loop env fuel 0).done = true
    · simp [hd, hc, closing]
    · simp [hd, hc]
  · intro k hok hbad hk
    have h := handle_client_loop_leaves env k 0 fuel
      (fun j _ h2 => hok j (by omega)) (by simpa using hbad) hk
    simp only [Nat.zero_add] at h
    unfold handle_client
    simp only [h.1, if_true]
    refine ⟨trivial, ?_, ?_⟩
    · simp [closing, Ev.isRecv, h.2.1]
    · rw [h.2.2]
  · intro hok
    have h := handle_client_loop_stays env fuel 0 (fun j _ h2 => hok j (by omega))
    unfold handle_client
    simp [h.1, h.2]

/-- Witness for C1: one record is echoed, then the peer closes; the unit leaves
its loop at the second `recv` and the trace is the one the machine predicts. -/
theorem handle_client_machine_witness :
    (handle_client env_one_echo 7 5).done = true ∧
    ((handle_client env_one_echo 7 5).trace.filter Ev.isRecv).length = 2 ∧
    (handle_client env_one_echo 7 5).trace =
      [Ev.recv 4096 [1, 2, 3], Ev.send [1, 2, 3] 4096 4096, Ev.recv 0 [],
       Ev.free, Ev.destroy 7, Ev.exit 0] := by
  have h := (handle_client_machine env_one_echo 7 5).2.2.2.2.2.1 1
      (by intro j hj; have : j = 0 := by omega
          subst this; exact ⟨by decide, by decide⟩)
      (by intro h; exact absurd h.1 (by decide)) (by decide)
  refine ⟨h.1, h.2.1, ?_⟩
  rw [h.2.2]
  decide

/-! ## The harness worker (`client_thread`) -/

theorem client_loop_spec (env : ClientEnv) (n : Nat) :
    ∀ i count, ∃ c : Nat, c ≤ n ∧
      (client_loop env n i count).count = count + c ∧
      (∀ j, i ≤ j → j < i + c → env.ok j) ∧
      (c < n → ¬ env.ok (i + c)) ∧
      (client_loop env n i count).calls =
        exchanges env i c ++ (if c < n then short_transfer env (i + c) else []) := by
  induction n with
  | zero =>
    intro i count
    exact ⟨0, le_refl 0, by simp [client_loop], by intro j h1 h2; omega, by simp,
      by simp [client_loop, exchanges]⟩
  | succ n ih =>
    intro i count
    by_cases hs : env.send i = PAYLOAD_SIZE
    · by_cases hr : env.recv i = PAYLOAD_SIZE
      · obtain ⟨c, hc, hcount, hok, hbad, hcalls⟩ := ih (i + 1) (count + 1)
        refine ⟨c + 1, by omega, ?_, ?_, ?_, ?_⟩
        · simp only [client_loop, hs, hr, ne_eq, not_true_eq_false, if_false, hcount]
          push_cast
          ring
        · intro j h1 h2
          by_cases hj : j = i
          · subst hj; exact ⟨hs, hr⟩
          · exact hok j (by omega) (by omega)
        · intro h
          rw [show i + (c + 1) = i + 1 + c by omega]
          exact hbad (by omega)
        · simp only [client_loop, hs, hr, ne_eq, not_true_eq_false, if_false, hcalls,
            exchanges, List.cons_append]
          rw [show i + (c + 1) = i + 1 + c by omega]
          by_cases h : c < n
          · simp [h]
          · simp [h]
      · refine ⟨0, by omega, ?_, by intro j h1 h2; omega, ?_, ?_⟩
        · simp [client_loop, hs, hr]
        · intro _ h
          exact hr h.2
        · simp [client_loop, hs, hr, exchanges, short_transfer]
    · refine ⟨0, by omega, ?_, by intro j h1 h2; omega, ?_, ?_⟩
      · simp [client_loop, hs]
      · intro _ h
        exact hs h.1
      · simp [client_loop, hs, exchanges, short_transfer]

/-- C8: on an established connection `client_thread` reports a count `c` with
`c ≤ BATCH_SIZE`; the iterations before `c` are exactly the full exchanges (send
and receive both returned `PAYLOAD_SIZE`); when `c < BATCH_SIZE` iteration `c`
contains the first short transfer; the calls issued are those `c` exchanges
followed by the calls of the short iteration up to and including the short
transfer, and nothing after it; and `c = BATCH_SIZE` exactly when no transfer
within the budget was short. -/
theorem client_thread_stops_at_first_short (env : ClientEnv) (elapsed : ℚ) :
    ∃ c : Nat, c ≤ BATCH_SIZE ∧
      client_thread env true elapsed =
        some ({ count := (c : Int), elapsed := elapsed },
          exchanges env 0 c ++ (if c < BATCH_SIZE then short_transfer env c else [])) ∧
      (∀ j, j < c → env.ok j) ∧
      (c < BATCH_SIZE → ¬ env.ok c) ∧
      (c = BATCH_SIZE ↔ ∀ j, j < BATCH_SIZE → env.ok j) := by
  obtain ⟨c, hc, hcount, hok, hbad, hcalls⟩ := client_loop_spec env BATCH_SIZE 0 0
  refine ⟨c, hc, ?_, fun j hj => hok j (Nat.zero_le j) (by omega), ?_, ?_⟩
  · simp only [client_thread, Bool.not_true, Bool.false_eq_true, if_false, hcount, hcalls]
    simp
  · intro h
    simpa using hbad h
  · constructor
    · intro h j hj
      exact hok j (Nat.zero_le j) (by omega)
    · intro h
      by_contra hne
      have hlt : c < BATCH_SIZE := lt_of_le_of_ne hc hne
      have := hbad hlt
      simp only [Nat.zero_add] at this
      exact this (h c hlt)

/-- Witness for C8: the third response is short, so two iterations are counted
and the loop stops. -/
theorem client_thread_stops_at_first_short_witness :
    (client_thread env_short_third true 1).map (fun r => (r.1.count, r.2)) =
      some (2, [CEv.send 4096, CEv.recv 4096, CEv.send 4096, CEv.recv 4096,
                CEv.send 4096, CEv.recv 100]) := by
  obtain ⟨c, hc, heq, hok, hbad, _⟩ := client_thread_stops_at_first_short env_short_third 1
  have h2 : ¬ env_short_third.ok 2 := by
    intro h
    exact absurd h.2 (by decide)
  have hc2 : c = 2 := by
    by_contra hne
    rcases Nat.lt_or_gt_of_ne hne with h | h
    · have hb := hbad (lt_of_lt_of_le h (by decide))
      have : c = 0 ∨ c = 1 := by omega
      rcases this with rfl | rfl
      · exact hb ⟨by decide, by decide⟩
      · exact hb ⟨by decide, by decide⟩
    · exact h2 (hok 2 h)
  subst hc2
  rw [heq]
  decide

/-! ## The aggregation of the harness (`main` of `bench_tcp_mt.c`) -/

theorem wrapLong_of_range (x : Int) (h0 : 0 ≤ x) (h1 : x < 2 ^ 63) : wrapLong x = x := by
  unfold wrapLong
  rw [Int.emod_eq_of_lt (by omega) (by omega)]
  omega

theorem aggregate_total (stats : List ThreadStats) :
    ∀ a : Agg, 0 ≤ a.total_req →
      (∀ s ∈ stats, 0 ≤ s.count ∧ s.count ≤ (BATCH_SIZE : Int)) →
      a.total_req + stats.length * (BATCH_SIZE : Int) < 2 ^ 63 →
      (stats.foldl aggregate_step a).total_req = a.total_req + (stats.map (·.count)).sum := by
  induction stats with
  | nil => intro a _ _ _; simp
  | cons s rest ih =>
    intro a h0 hc hb
    have hs := hc s (List.mem_cons_self s rest)
    simp only [List.length_cons, Nat.cast_add, Nat.cast_one] at hb
    have hB : (0 : Int) ≤ (rest.length : Int) * (BATCH_SIZE : Int) := by positivity
    have hstep : (aggregate_step a s).total_req = a.total_req + s.count := by
      simp only [aggregate_step]
      exact wrapLong_of_range _ (by omega) (by nlinarith)
    rw [List.foldl_cons, ih (aggregate_step a s) (by rw [hstep]; omega)
      (fun t ht => hc t (List.mem_cons_of_mem s ht)) (by rw [hstep]; nlinarith)]
    rw [hstep]
    simp [add_assoc]

theorem aggregate_max (stats : List ThreadStats) :
    ∀ a : Agg, a.max_time ≤ (stats.foldl aggregate_step a).max_time ∧
      (∀ s ∈ stats, s.elapsed ≤ (stats.foldl aggregate_step a).max_time) ∧
      ((stats.foldl aggregate_step a).max_time = a.max_time ∨
        ∃ s ∈ stats, s.elapsed = (stats.foldl aggregate_step a).max_time) := by
  induction stats with
  | nil => intro a; simp
  | cons s rest ih =>
    intro a
    obtain ⟨h1, h2, h3⟩ := ih (aggregate_step a s)
    have hm : (aggregate_step a s).max_time =
        if s.elapsed > a.max_time then s.elapsed else a.max_time := rfl
    rw [List.foldl_cons]
    refine ⟨?_, ?_, ?_⟩
    · refine le_trans ?_ h1
      rw [hm]; split <;> [exact le_of_lt (by assumption); exact le_refl _]
    · intro t ht
      rcases List.mem_cons.1 ht with rfl | ht
      · refine le_trans ?_ h1
        rw [hm]; split <;> [exact le_refl _; exact not_lt.1 (by assumption)]
      · exact h2 t ht
    · rcases h3 with h3 | ⟨t, ht, h3⟩
      · rw [h3, hm]
        split
        · exact Or.inr ⟨s, List.mem_cons_self s rest, rfl⟩
        · exact Or.inl rfl
      · exact Or.inr ⟨t, List.mem_cons_of_mem s ht, h3⟩

/-- C2: for participants whose counts are completed-iteration counts
(`0 ≤ c_i ≤ BATCH_SIZE`, fewer than `2^31` of them, as `num_threads` is an
`int`) and of whose elapsed times at least one is positive, the aggregation
divides by the slowest participant's time: `max_time` is an elapsed time of
the list that no other exceeds, `total_req` is the sum of the counts, and over
exact arithmetic `real_agg_bw = (Σ c_i * 4096 * 8) / (max_time * 1e6)` and
`real_req_rate = Σ c_i / max_time`. -/
theorem aggregate_divides_by_slowest (stats : List ThreadStats)
    (hlen : stats.length < 2 ^ 31)
    (hc : ∀ s ∈ stats, 0 ≤ s.count ∧ s.count ≤ (BATCH_SIZE : Int))
    (hpos : ∃ s ∈ stats, 0 < s.elapsed) :
    ∃ M : ℚ, (∃ s ∈ stats, s.elapsed = M) ∧ (∀ s ∈ stats, s.elapsed ≤ M) ∧ 0 < M ∧
      (aggregate stats).max_time = M ∧
      (aggregate stats).total_req = (stats.map (·.count)).sum ∧
      real_agg_bw (aggregate stats) =
        (((stats.map (·.count)).sum : Int) * 4096 * 8 : ℚ) / (M * 1000000) ∧
      real_req_rate (aggregate stats) = (((stats.map (·.count)).sum : Int) : ℚ) / M := by
  obtain ⟨s0, hs0, hs0pos⟩ := hpos
  have hlen' : (stats.length : Int) < 2 ^ 31 := by exact_mod_cast hlen
  have hBS : (BATCH_SIZE : Int) = 1000000 := rfl
  have htot := aggregate_total stats { total_req := 0, total_bw := 0, max_time := 0 }
    (le_refl _) hc (by simp only [hBS]; omega)
  simp only [zero_add] at htot
  obtain ⟨_, hle, hmem⟩ := aggregate_max stats { total_req := 0, total_bw := 0, max_time := 0 }
  have hMpos : 0 < (aggregate stats).max_time := lt_of_lt_of_le hs0pos (hle s0 hs0)
  have hsum0 : ∀ l : List ThreadStats, (∀ s ∈ l, 0 ≤ s.count ∧ s.count ≤ (BATCH_SIZE : Int)) →
      0 ≤ (l.map (·.count)).sum ∧ (l.map (·.count)).sum ≤ l.length * (BATCH_SIZE : Int) := by
    intro l
    induction l with
    | nil => intro _; simp
    | cons t l ih =>
      intro h
      have ht := h t (List.mem_cons_self t l)
      have hl := ih (fun u hu => h u (List.mem_cons_of_mem t hu))
      simp only [List.map_cons, List.sum_cons, List.length_cons, Nat.cast_add, Nat.cast_one]
      constructor
      · omega
      · nlinarith
  have hsum := hsum0 stats hc
  refine ⟨(aggregate stats).max_time, ?_, hle, hMpos, rfl, htot, ?_, ?_⟩
  · rcases hmem with h | h
    · exfalso
      have : (aggregate stats).max_time = 0 := h
      rw [this] at hMpos
      exact lt_irrefl _ hMpos
    · exact h
  · unfold real_agg_bw
    have htot' : (aggregate stats).total_req = (stats.map (·.count)).sum := htot
    rw [htot', wrapLong_of_range _ (by simp only [PAYLOAD_SIZE]; omega)
      (by simp only [PAYLOAD_SIZE, hBS] at *; omega)]
    simp only [PAYLOAD_SIZE]
    push_cast
    rfl
  · unfold real_req_rate
    have htot' : (aggregate stats).total_req = (stats.map (·.count)).sum := htot
    rw [htot']

/-- Witness for C2: four participants with 1,000,000 iterations each and
elapsed times `2`, `5/2`, `3`, `9/4`: the divisor is `3`, the slowest. -/
theorem aggregate_divides_by_slowest_witness :
    real_agg_bw (aggregate stats_four) = (4000000 * 4096 * 8 : ℚ) / (3 * 1000000) ∧
    real_req_rate (aggregate stats_four) = (4000000 : ℚ) / 3 := by
  obtain ⟨M, ⟨s, hs, hsM⟩, hle, _, _, _, hbw, hrate⟩ :=
    aggregate_divides_by_slowest stats_four (by decide)
      (by intro s hs
          simp only [stats_four, List.mem_cons, List.mem_singleton, List.not_mem_nil,
            or_false] at hs
          rcases hs with rfl | rfl | rfl | rfl <;> exact ⟨by decide, by decide⟩)
      ⟨{ count := 1000000, elapsed := 2 }, by simp [stats_four], by norm_num⟩
  have h3 : (3 : ℚ) ≤ M := hle { count := 1000000, elapsed := 3 } (by simp [stats_four])
  have hM : M = 3 := by
    simp only [stats_four, List.mem_cons, List.mem_singleton, List.not_mem_nil,
      or_false] at hs
    rcases hs with rfl | rfl | rfl | rfl
    · simp only at hsM; rw [← hsM] at h3; norm_num at h3
    · simp only at hsM; rw [← hsM] at h3; norm_num at h3
    · exact hsM.symm
    · simp only at hsM; rw [← hsM] at h3; norm_num at h3
  subst hM
  have hsum : (stats_four.map (·.count)).sum = 4000000 := by decide
  rw [hbw, hrate, hsum]
  norm_num

/-! ## The observer (`usrl_top.c`) -/

theorem sub_u64_of_le (a b : Nat) (hab : b ≤ a) (ha : a < 2 ^ 64) : sub_u64 a b = a - b := by
  unfold sub_u64
  norm_num at ha ⊢
  omega

theorem interval_pos (now last_time : Nat) : 0 < interval now last_time := by
  unfold interval
  simp only
  split
  · norm_num
  · rename_i h
    exact not_le.1 h

/-- C3: with the previous sample `h1` stored in `last_head`, a current sample
`h2 ≥ h1` (a 64-bit value) and an interval `dt > 0`, the per-topic update
computes the published count `h2 - h1` with no wrap, `rate_hz = (h2 - h1) / dt`
(so `rate_hz * dt` is the count) and `bw_kbs = rate_hz * s / 1024`, over exact
arithmetic. -/
theorem update_topic_exact_diff (h1 h2 s : Nat) (dt : ℚ) (st : TopicStats)
    (hst : st.last_head = h1) (hle : h1 ≤ h2) (hb : h2 < 2 ^ 64) (hdt : 0 < dt) :
    head_diff h2 st = h2 - h1 ∧
    (update_topic dt s h2 st).rate_hz = ((h2 : ℚ) - (h1 : ℚ)) / dt ∧
    (update_topic dt s h2 st).rate_hz * dt = (h2 : ℚ) - (h1 : ℚ) ∧
    (update_topic dt s h2 st).bw_kbs = (((h2 : ℚ) - (h1 : ℚ)) / dt * (s : ℚ)) / 1024 := by
  have hd : head_diff h2 st = h2 - h1 := by
    unfold head_diff
    rw [hst]
    exact sub_u64_of_le h2 h1 hle hb
  have hq : ((h2 - h1 : Nat) : ℚ) = (h2 : ℚ) - (h1 : ℚ) := Nat.cast_sub hle
  refine ⟨hd, ?_, ?_, ?_⟩
  · simp only [update_topic, hd, hq]
  · simp only [update_topic, hd, hq]
    field_simp
  · simp only [update_topic, hd, hq]

/-- Witness for C3: heads `1000` then `1500`, clock readings 500 ms apart
(`dt = 0.5`), slot size `64`: rate `1000` Hz and bandwidth `62.5` KB/s. -/
theorem update_topic_exact_diff_witness :
    interval 1500 1000 = 1 / 2 ∧
    head_diff 1500 { TopicStats.zero with last_head := 1000 } = 500 ∧
    (update_topic (interval 1500 1000) 64 1500
      { TopicStats.zero with last_head := 1000 }).rate_hz = 1000 ∧
    (update_topic (interval 1500 1000) 64 1500
      { TopicStats.zero with last_head := 1000 }).bw_kbs = 125 / 2 := by
  have hi : interval 1500 1000 = 1 / 2 := by norm_num [interval, sub_u64]
  have h := update_topic_exact_diff 1000 1500 64 (interval 1500 1000)
    { TopicStats.zero with last_head := 1000 } rfl (by decide) (by norm_num)
    (interval_pos 1500 1000)
  refine ⟨hi, h.1, ?_, ?_⟩
  · rw [h.2.1, hi]; norm_num
  · rw [h.2.2.2, hi]; norm_num

/-- C4 (as the code behaves): `map_system` returns `NULL` exactly when
`shm_open` fails, `read` does not deliver a whole header, or `mmap` fails;
its result is the same whatever `topic_table_offset` and `topic_count` the
header holds, so a header that breaks the table bound does not make opening
fail.  When `map_system` returns `NULL`, `main` returns `1` without having
loaded any table entry or ring descriptor. -/
theorem map_system_fails_iff (L : Layout) (env : ShmEnv) (load0 : Nat → Nat) (t0 : Nat) :
    (map_system L env = none ↔
      (env.fd < 0 ∨ env.read_ret ≠ (L.hdr_size : Int) ∨ env.mmap env.hdr.mmap_size = none)) ∧
    (∀ tto tc : Nat,
      map_system L { env with hdr := { env.hdr with topic_table_offset := tto,
                                                    topic_count := tc } } =
        map_system L env) ∧
    (map_system L env = none →
      main_init L env load0 t0 = Except.error (InitError.exit 1)) := by
  refine ⟨?_, ?_, ?_⟩
  · unfold map_system
    by_cases h1 : env.fd < 0
    · simp [h1]
    · by_cases h2 : env.read_ret = (L.hdr_size : Int)
      · simp [h1, h2]
      · simp [h1, h2]
  · intro tto tc
    rfl
  · intro h
    simp [main_init, h]

/-- Witness for C4 (as the code behaves): when `shm_open` fails the observer
returns `1`. -/
theorem map_system_fails_iff_witness :
    main_init layout_ex shm_missing (fun _ => 0) 0 = Except.error (InitError.exit 1) :=
  (map_system_fails_iff layout_ex shm_missing (fun _ => 0) 0).2.2
    (((map_system_fails_iff layout_ex shm_missing (fun _ => 0) 0).1).2 (Or.inl (by decide)))

/-- Counterexample to C4: the header `hdr_corrupt` has
`topic_table_offset + topic_count * sizeof(TopicEntry) = 4256 > 4096 = mmap_size`,
yet `map_system` succeeds; `main` does not return `1` but goes on to load
`topics[0].ring_desc_offset` at offset `4160`, outside the 4096 mapped bytes,
and faults there. -/
theorem map_system_accepts_corrupt_header :
    shm_corrupt.hdr.topic_table_offset + shm_corrupt.hdr.topic_count * layout_ex.entry_size
      > shm_corrupt.hdr.mmap_size ∧
    (map_system layout_ex shm_corrupt).isSome = true ∧
    main_init layout_ex shm_corrupt (fun _ => 0) 0 = Except.error (InitError.segv 4160) := by
  refine ⟨by decide, by decide, ?_⟩
  simp [main_init, map_system, shm_corrupt, layout_ex, init_fault, entry_off, Mapping.inside,
    hdr_corrupt]

/-! ## Reaping (`sigchld_handler`) -/

theorem reap_loop_drains (errs : Nat → Int) (zs : List Int) :
    ∀ (k : Nat) (p : Proc) (fuel : Nat), p.zombies = zs → (∀ z ∈ zs, 0 < z) →
      zs.length < fuel →
      ∃ e, reap_loop errs fuel k p =
        Outcome.returned { zombies := [], live := p.live, errno := e } := by
  induction zs with
  | nil =>
    intro k p fuel hz _ hf
    obtain ⟨f, rfl⟩ : ∃ f, fuel = f + 1 := ⟨fuel - 1, by simp at hf; omega⟩
    by_cases hl : p.live = []
    · exact ⟨errs k, by simp [reap_loop, waitpid, hz, hl]⟩
    · exact ⟨errs k, by simp [reap_loop, waitpid, hz, hl]⟩
  | cons z zs ih =>
    intro k p fuel hz hpos hf
    obtain ⟨f, rfl⟩ : ∃ f, fuel = f + 1 := ⟨fuel - 1, by simp at hf; omega⟩
    have hzpos : 0 < z := hpos z (List.mem_cons_self z zs)
    obtain ⟨e, he⟩ := ih (k + 1) { p with zombies := zs, errno := errs k } f rfl
      (fun y hy => hpos y (List.mem_cons_of_mem z hy)) (by simp at hf; omega)
    exact ⟨e, by simp [reap_loop, waitpid, hz, hzpos, he]⟩

/-- C5: whatever the finished units (with positive pids), the running units,
`errno` on entry and the values the `waitpid` calls leave in `errno`, one run
of `sigchld_handler` (given at least one loop iteration more than there are
finished units) returns without blocking, with no finished unit left, the
running units untouched and `errno` equal to its value on entry. -/
theorem sigchld_handler_drains (errs : Nat → Int) (p : Proc) (fuel : Nat)
    (hpos : ∀ z ∈ p.zombies, 0 < z) (hfuel : p.zombies.length < fuel) :
    sigchld_handler errs fuel p =
      Outcome.returned { zombies := [], live := p.live, errno := p.errno } := by
  obtain ⟨e, he⟩ := reap_loop_drains errs p.zombies 0 p fuel rfl hpos hfuel
  simp [sigchld_handler, he]

/-- Witness for C5: three finished units and one running unit, `errno = 4` on
entry, every `waitpid` call leaving `10` (`ECHILD`) in `errno`. -/
theorem sigchld_handler_drains_witness :
    sigchld_handler (fun _ => 10) 4 proc_ex =
      Outcome.returned { zombies := [], live := [104], errno := 4 } :=
  sigchld_handler_drains (fun _ => 10) proc_ex 4
    (by intro z hz
        simp only [proc_ex, List.mem_cons, List.mem_singleton, List.not_mem_nil,
          or_false] at hz
        rcases hz with rfl | rfl | rfl <;> decide)
    (by decide)

/-! ## The acceptor (`main` of `bench_tcp_server.c`) -/

theorem acceptCalls_append (a b : List SEv) :
    acceptCalls (a ++ b) = acceptCalls a + acceptCalls b := by
  simp [acceptCalls]

theorem acceptCalls_unit (l : List Ev) : acceptCalls (l.map SEv.unit) = 0 := by
  induction l with
  | nil => rfl
  | cons e l ih => simpa [acceptCalls, List.count_cons] using ih

theorem step_running_false (server : Nat) (s : Srv) (i : Inp) (h : s.running = false) :
    (step server s i).1.running = false := by
  cases i with
  | stop => rfl
  | unit_done pid => simp only [step]; split <;> simp [h]
  | unit_run env fuel => simp only [step]; split <;> [split; skip] <;> simp [h]
  | step rc client pid =>
    simp only [step]
    split <;> (try split) <;> (try split) <;> simp [h]

theorem step_stopped (server : Nat) (s : Srv) (i : Inp) (h : s.running = false) :
    acceptCalls (step server s i).2 + (if (step server s i).1.pc = Pc.accept_call then 1 else 0)
      ≤ (if s.pc = Pc.accept_call then 1 else 0) := by
  obtain ⟨running, pc, units⟩ := s
  simp only at h
  subst h
  cases i with
  | stop => simp [step, sighandler, acceptCalls]
  | unit_done pid =>
    simp only [step]
    split <;> simp [acceptCalls]
  | unit_run env fuel =>
    cases pc with
    | in_unit c =>
      by_cases hd : (handle_client env c fuel).done = true
      · simp [step, hd, acceptCalls_unit]
      · simp [step, hd, acceptCalls]
    | _ => simp [step, acceptCalls]
  | step rc client pid =>
    cases pc with
    | test => simp [step, acceptCalls]
    | accept_call => simp [step, acceptCalls]
    | accept_wait =>
      cases client with
      | none => simp [step, acceptCalls]
      | some c => simp only [step]; split <;> simp [acceptCalls]
    | fork c =>
      simp only [step]
      split <;> [skip; split] <;> simp [acceptCalls]
    | in_unit c => simp [step, acceptCalls]
    | shutdown => simp [step, acceptCalls]
    | kill => simp [step, acceptCalls]
    | returned => simp [step, acceptCalls]

theorem run_stopped (server : Nat) (inps : List Inp) :
    ∀ s : Srv, s.running = false →
      acceptCalls (run server s inps) ≤ (if s.pc = Pc.accept_call then 1 else 0) := by
  induction inps with
  | nil => intro s _; simp [run, acceptCalls]
  | cons i inps ih =>
    intro s h
    have h1 := step_stopped server s i h
    have h2 := ih (step server s i).1 (step_running_false server s i h)
    simp only [run, acceptCalls_append]
    omega

theorem step_left_loop (server : Nat) (s : Srv) (i : Inp) (h : s.pc.inLoop = false) :
    (step server s i).1.pc.inLoop = false ∧ acceptCalls (step server s i).2 = 0 ∧
    (s.pc = Pc.returned ∨ (∃ c, s.pc = Pc.in_unit c) →
      ((step server s i).1.pc = Pc.returned ∨ ∃ c, (step server s i).1.pc = Pc.in_unit c) ∧
      ∀ rs, SEv.kill rs ∉ (step server s i).2) := by
  obtain ⟨running, pc, units⟩ := s
  cases i with
  | stop => simpa [step, sighandler, acceptCalls] using h
  | unit_done pid =>
    simp only [step]
    split <;> simpa [acceptCalls] using h
  | unit_run env fuel =>
    cases pc with
    | in_unit c =>
      by_cases hd : (handle_client env c fuel).done = true
      · simp [step, hd, acceptCalls_unit, Pc.inLoop]
      · simp [step, hd, acceptCalls, Pc.inLoop]
    | _ => simp [step, acceptCalls, Pc.inLoop] at h ⊢
  | step rc client pid =>
    cases pc <;> simp [step, acceptCalls, Pc.inLoop] at h ⊢

theorem run_left_loop (server : Nat) (inps : List Inp) :
    ∀ s : Srv, s.pc.inLoop = false → acceptCalls (run server s inps) = 0 := by
  induction inps with
  | nil => intro s _; simp [run, acceptCalls]
  | cons i inps ih =>
    intro s h
    have h1 := step_left_loop server s i h
    simp only [run, acceptCalls_append, h1.2.1, ih _ h1.1]

theorem run_no_kill (server : Nat) (inps : List Inp) :
    ∀ s : Srv, (s.pc = Pc.returned ∨ ∃ c, s.pc = Pc.in_unit c) →
      ∀ rs, SEv.kill rs ∉ run server s inps := by
  induction inps with
  | nil => intro s _ rs; simp [run]
  | cons i inps ih =>
    intro s h rs
    have hl : s.pc.inLoop = false := by
      rcases h with h | ⟨c, h⟩ <;> simp [h, Pc.inLoop]
    have h1 := (step_left_loop server s i hl).2.2 h
    simp only [run, List.mem_append, not_or]
    exact ⟨h1.2 rs, ih _ h1.1 rs⟩

theorem append_eq_append_cons {α : Type} (e R pre post : List α) (x : α)
    (h : e ++ R = pre ++ x :: post) :
    (∃ a, pre = e ++ a ∧ R = a ++ x :: post) ∨
    (∃ c, e = pre ++ x :: c ∧ post = c ++ R) := by
  rcases List.append_eq_append_iff.1 h with ⟨a, h1, h2⟩ | ⟨c, h1, h2⟩
  · exact Or.inl ⟨a, h1, h2⟩
  · cases c with
    | nil =>
      refine Or.inl ⟨[], ?_, ?_⟩
      · simpa using h1.symm
      · simpa using h2.symm
    | cons y c =>
      simp only [List.cons_append, List.cons.injEq] at h2
      obtain ⟨rfl, rfl⟩ := h2
      exact Or.inr ⟨c, h1, rfl⟩

theorem singleton_eq_append_cons {α : Type} (y x : α) (a c : List α)
    (h : [y] = a ++ x :: c) : a = [] ∧ c = [] ∧ x = y := by
  cases a with
  | nil =>
    simp only [List.nil_append, List.cons.injEq] at h
    exact ⟨rfl, h.2.symm, h.1.symm⟩
  | cons z a => simp at h

theorem pair_eq_append_cons {α : Type} (y z x : α) (a c : List α)
    (h : [y, z] = a ++ x :: c) : (a = [] ∧ x = y ∧ c = [z]) ∨ (a = [y] ∧ x = z ∧ c = []) := by
  cases a with
  | nil =>
    simp only [List.nil_append, List.cons.injEq] at h
    exact Or.inl ⟨rfl, h.1.symm, h.2.symm⟩
  | cons w a =>
    simp only [List.cons_append, List.cons.injEq] at h
    obtain ⟨h1, h2⟩ := h
    obtain ⟨ha, hc, hx⟩ := singleton_eq_append_cons z x a c h2
    subst ha hc hx h1
    exact Or.inr ⟨rfl, rfl, rfl⟩

theorem step_emits_stop (server : Nat) (s : Srv) (i : Inp) (a c : List SEv)
    (h : (step server s i).2 = a ++ SEv.stop :: c) :
    c = [] ∧ (step server s i).1.running = false := by
  have hm : SEv.stop ∈ (step server s i).2 := by rw [h]; simp
  obtain ⟨running, pc, units⟩ := s
  cases i with
  | stop =>
    simp only [step, sighandler] at h
    exact ⟨(singleton_eq_append_cons _ _ _ _ h).2.1, rfl⟩
  | unit_done pid =>
    simp only [step] at hm
    split at hm <;> simp at hm
  | unit_run env fuel =>
    cases pc with
    | in_unit c =>
      by_cases hd : (handle_client env c fuel).done = true
      · simp [step, hd] at hm
      · simp [step, hd] at hm
    | _ => simp [step] at hm
  | step rc client pid =>
    cases pc with
    | accept_wait =>
      cases client with
      | none => simp [step] at hm
      | some c => simp only [step] at hm; split at hm <;> simp at hm
    | fork c =>
      simp only [step] at hm
      split at hm <;> [skip; split at hm] <;> simp at hm
    | test =>
      simp only [step] at hm
      split at hm <;> simp at hm
    | _ => simp [step] at hm

theorem step_emits_test_false (server : Nat) (s : Srv) (i : Inp) (a c : List SEv)
    (h : (step server s i).2 = a ++ SEv.test false :: c) :
    c = [] ∧ (step server s i).1.pc = Pc.shutdown := by
  have hm : SEv.test false ∈ (step server s i).2 := by rw [h]; simp
  obtain ⟨running, pc, units⟩ := s
  cases i with
  | stop => simp [step] at hm
  | unit_done pid =>
    simp only [step] at hm
    split at hm <;> simp at hm
  | unit_run env fuel =>
    cases pc with
    | in_unit c =>
      by_cases hd : (handle_client env c fuel).done = true
      · simp [step, hd] at hm
      · simp [step, hd] at hm
    | _ => simp [step] at hm
  | step rc client pid =>
    cases pc with
    | accept_wait =>
      cases client with
      | none => simp [step] at hm
      | some c => simp only [step] at hm; split at hm <;> simp at hm
    | fork c =>
      simp only [step] at hm
      split at hm <;> [skip; split at hm] <;> simp at hm
    | test =>
      cases running with
      | true => simp [step] at hm
      | false =>
        simp [step] at h ⊢
        exact (singleton_eq_append_cons _ _ _ _ h).2.1
    | _ => simp [step] at hm

theorem step_emits_kill (server : Nat) (s : Srv) (i : Inp) (a c : List SEv) (rs : List Int)
    (h : (step server s i).2 = a ++ SEv.kill rs :: c) :
    a = [] ∧ c = [SEv.ret 0] ∧ rs = s.units ∧ s.pc = Pc.kill ∧
    (step server s i).1.pc = Pc.returned := by
  have hm : SEv.kill rs ∈ (step server s i).2 := by rw [h]; simp
  obtain ⟨running, pc, units⟩ := s
  cases i with
  | stop => simp [step] at hm
  | unit_done pid =>
    simp only [step] at hm
    split at hm <;> simp at hm
  | unit_run env fuel =>
    cases pc with
    | in_unit c =>
      by_cases hd : (handle_client env c fuel).done = true
      · simp [step, hd] at hm
      · simp [step, hd] at hm
    | _ => simp [step] at hm
  | step rc client pid =>
    cases pc with
    | accept_wait =>
      cases client with
      | none => simp [step] at hm
      | some c => simp only [step] at hm; split at hm <;> simp at hm
    | fork c =>
      simp only [step] at hm
      split at hm <;> [skip; split at hm] <;> simp at hm
    | test =>
      simp only [step] at hm
      split at hm <;> simp at hm
    | kill =>
      simp only [step] at h
      rcases pair_eq_append_cons _ _ _ _ _ h with ⟨ha, hx, hc⟩ | ⟨_, hx, _⟩
      · simp only [SEv.kill.injEq] at hx
        exact ⟨ha, hc, hx, rfl, rfl⟩
      · cases hx
    | _ => simp [step] at hm

theorem liveUnits_unit (us : List Int) (l : List Ev) (t : List SEv) :
    liveUnits us (l.map SEv.unit ++ t) = liveUnits us t := by
  induction l with
  | nil => rfl
  | cons e l ih => simpa [liveUnits] using ih

theorem liveUnits_step (server : Nat) (s : Srv) (i : Inp) (t : List SEv) :
    liveUnits s.units ((step server s i).2 ++ t) = liveUnits (step server s i).1.units t := by
  obtain ⟨running, pc, units⟩ := s
  cases i with
  | stop => simp [step, sighandler, liveUnits]
  | unit_done pid =>
    simp only [step]
    split <;> simp [liveUnits]
  | unit_run env fuel =>
    cases pc with
    | in_unit c =>
      by_cases hd : (handle_client env c fuel).done = true
      · simp [step, hd, liveUnits_unit]
      · simp [step, hd]
    | _ => simp [step]
  | step rc client pid =>
    cases pc with
    | accept_wait =>
      cases client with
      | none => simp [step, liveUnits]
      | some c => simp only [step]; split <;> simp [liveUnits]
    | fork c =>
      simp only [step]
      split
      · rename_i h0
        subst h0
        simp [liveUnits]
      · split
        · rename_i h1
          simp [liveUnits, h1]
        · rename_i h1
          simp [liveUnits, h1]
    | test =>
      simp only [step]
      split <;> simp [liveUnits]
    | _ => simp [step, liveUnits]

theorem step_in_loop (server : Nat) (s : Srv) (i : Inp) (h : s.pc.inLoop = true) :
    (step server s i).1.pc.inLoop = true ∨ SEv.test false ∈ (step server s i).2 ∨
    ∃ c, (step server s i).1.pc = Pc.in_unit c := by
  obtain ⟨running, pc, units⟩ := s
  cases i with
  | stop => exact Or.inl (by simpa [step, sighandler] using h)
  | unit_done pid =>
    refine Or.inl ?_
    simp only [step]
    split <;> simpa using h
  | unit_run env fuel =>
    cases pc with
    | in_unit c => simp [Pc.inLoop] at h
    | _ => simp [step, Pc.inLoop] at h ⊢
  | step rc client pid =>
    cases pc with
    | accept_wait =>
      cases client with
      | none => simp [step, Pc.inLoop]
      | some c => simp only [step]; split <;> simp [Pc.inLoop]
    | fork c =>
      simp only [step]
      split <;> [skip; split] <;> simp [Pc.inLoop]
    | test =>
      simp only [step]
      split <;> simp [Pc.inLoop]
    | accept_call => simp [step, Pc.inLoop]
    | _ => simp [Pc.inLoop] at h

theorem run_after_stop (server : Nat) (inps : List Inp) :
    ∀ (s : Srv) (pre post : List SEv), run server s inps = pre ++ SEv.stop :: post →
      acceptCalls post ≤ 1 := by
  induction inps with
  | nil => intro s pre post h; simp [run] at h
  | cons i inps ih =>
    intro s pre post h
    rcases append_eq_append_cons _ _ _ _ _ h with ⟨a, _, h2⟩ | ⟨c, h1, h2⟩
    · exact ih _ a post h2
    · obtain ⟨hc, hr⟩ := step_emits_stop server s i pre c h1
      subst hc
      rw [h2, List.nil_append]
      refine le_trans (run_stopped server inps _ hr) ?_
      split <;> omega

theorem run_after_test_false (server : Nat) (inps : List Inp) :
    ∀ (s : Srv) (pre post : List SEv), run server s inps = pre ++ SEv.test false :: post →
      acceptCalls post = 0 := by
  induction inps with
  | nil => intro s pre post h; simp [run] at h
  | cons i inps ih =>
    intro s pre post h
    rcases append_eq_append_cons _ _ _ _ _ h with ⟨a, _, h2⟩ | ⟨c, h1, h2⟩
    · exact ih _ a post h2
    · obtain ⟨hc, hp⟩ := step_emits_test_false server s i pre c h1
      subst hc
      rw [h2, List.nil_append]
      exact run_left_loop server inps _ (by rw [hp]; rfl)

theorem run_kill (server : Nat) (inps : List Inp) :
    ∀ (s : Srv) (pre post : List SEv) (rs : List Int),
      run server s inps = pre ++ SEv.kill rs :: post →
      rs = liveUnits s.units pre ∧ (s.pc.inLoop = true → SEv.test false ∈ pre) ∧
      acceptCalls post = 0 ∧ ∀ rs', SEv.kill rs' ∉ post := by
  induction inps with
  | nil => intro s pre post rs h; simp [run] at h
  | cons i inps ih =>
    intro s pre post rs h
    rcases append_eq_append_cons _ _ _ _ _ h with ⟨a, h1, h2⟩ | ⟨c, h1, h2⟩
    · obtain ⟨i1, i2, i3, i4⟩ := ih _ a post rs h2
      refine ⟨?_, ?_, i3, i4⟩
      · rw [h1, liveUnits_step]
        exact i1
      · intro hl
        rw [h1]
        rcases step_in_loop server s i hl with hl' | hl' | ⟨c, hl'⟩
        · exact List.mem_append_right _ (i2 hl')
        · exact List.mem_append_left _ hl'
        · exfalso
          refine run_no_kill server inps _ (Or.inr ⟨c, hl'⟩) rs ?_
          rw [h2]
          simp
    · obtain ⟨ha, hc, hrs, hpc, hpc'⟩ := step_emits_kill server s i pre c rs h1
      subst ha hc
      refine ⟨by simpa [liveUnits] using hrs, ?_, ?_, ?_⟩
      · intro hl
        rw [hpc] at hl
        simp [Pc.inLoop] at hl
      · rw [h2, acceptCalls_append, run_left_loop server inps _ (by rw [hpc']; rfl)]
        simp [acceptCalls]
      · intro rs'
        rw [h2]
        simp only [List.mem_append, not_or]
        exact ⟨by simp, run_no_kill server inps _ (Or.inl hpc') rs'⟩

theorem step_keeps_units (server : Nat) (s : Srv) (i : Inp) (u : Int) (hu : u ∈ s.units) :
    u ∈ (step server s i).1.units ∨ ∃ pid, i = Inp.unit_done pid ∧ pid = u := by
  obtain ⟨running, pc, units⟩ := s
  simp only at hu
  cases i with
  | stop => exact Or.inl hu
  | unit_done pid =>
    by_cases hp : pid = u
    · exact Or.inr ⟨pid, rfl, hp⟩
    · refine Or.inl ?_
      simp only [step]
      split
      · exact (List.mem_erase_of_ne (Ne.symm hp)).2 hu
      · exact hu
  | unit_run env fuel =>
    refine Or.inl ?_
    cases pc with
    | in_unit c =>
      by_cases hd : (handle_client env c fuel).done = true
      · simpa [step, hd] using hu
      · simpa [step, hd] using hu
    | _ => simpa [step] using hu
  | step rc client pid =>
    refine Or.inl ?_
    cases pc with
    | accept_wait =>
      cases client with
      | none => simpa [step] using hu
      | some c => simp only [step]; split <;> simpa using hu
    | fork c =>
      simp only [step]
      split <;> [skip; split] <;> simp [hu]
    | test =>
      simp only [step]
      split <;> simpa using hu
    | _ => simpa [step] using hu

/-- C7 (as the code behaves): for every schedule of signals, unit completions
and steps of `main`, starting at the first loop test.  (1) After a stop signal
at most one further `usrl_trans_accept` call is issued.  (2) After a loop test
that read `running = 0` none is issued.  (3) The stop signal itself only
clears the flag: the program point and the set of units are unchanged.
(4) A unit leaves the set of units only by its own completion, whatever the
transition.  (5) A termination broadcast is preceded by a loop test that read
`running = 0`, goes to exactly the units forked and not yet completed at that
moment, and is followed by no accept call and no second broadcast. -/
theorem acceptor_shutdown_order (server : Nat) (inps : List Inp) :
    (∀ pre post, run server Srv.init inps = pre ++ SEv.stop :: post → acceptCalls post ≤ 1) ∧
    (∀ pre post, run server Srv.init inps = pre ++ SEv.test false :: post →
      acceptCalls post = 0) ∧
    (∀ s : Srv, (step server s Inp.stop).1.units = s.units ∧
      (step server s Inp.stop).1.pc = s.pc ∧ (step server s Inp.stop).2 = [SEv.stop]) ∧
    (∀ (s : Srv) (i : Inp) (u : Int), u ∈ s.units →
      u ∈ (step server s i).1.units ∨ ∃ pid, i = Inp.unit_done pid ∧ pid = u) ∧
    (∀ pre rs post, run server Srv.init inps = pre ++ SEv.kill rs :: post →
      SEv.test false ∈ pre ∧ rs = liveUnits [] pre ∧ acceptCalls post = 0 ∧
      ∀ rs', SEv.kill rs' ∉ post) := by
  refine ⟨run_after_stop server inps Srv.init, run_after_test_false server inps Srv.init,
    fun s => ⟨rfl, rfl, rfl⟩, step_keeps_units server, ?_⟩
  intro pre rs post h
  obtain ⟨h1, h2, h3, h4⟩ := run_kill server inps Srv.init pre post rs h
  exact ⟨h2 rfl, h1, h3, h4⟩

/-- Witness for C7 (as the code behaves): one connection is accepted and its
unit `55` forked; the stop signal arrives during the next accept; the
broadcast comes after the loop test that read `running = 0` and goes to the
unit `55`. -/
theorem acceptor_shutdown_order_witness :
    run 1 Srv.init sched_graceful =
      [SEv.test true, SEv.accept_call, SEv.accept_ret 0 (some 7), SEv.fork 7 55,
       SEv.destroy 7, SEv.test true, SEv.accept_call, SEv.stop, SEv.accept_ret (-1) none,
       SEv.test false, SEv.shutting_down, SEv.destroy 1] ++ SEv.kill [55] :: [SEv.ret 0] ∧
    SEv.test false ∈
      [SEv.test true, SEv.accept_call, SEv.accept_ret 0 (some 7), SEv.fork 7 55,
       SEv.destroy 7, SEv.test true, SEv.accept_call, SEv.stop, SEv.accept_ret (-1) none,
       SEv.test false, SEv.shutting_down, SEv.destroy 1] ∧
    [55] = liveUnits []
      [SEv.test true, SEv.accept_call, SEv.accept_ret 0 (some 7), SEv.fork 7 55,
       SEv.destroy 7, SEv.test true, SEv.accept_call, SEv.stop, SEv.accept_ret (-1) none,
       SEv.test false, SEv.shutting_down, SEv.destroy 1] :=
  have h : run 1 Srv.init sched_graceful =
      [SEv.test true, SEv.accept_call, SEv.accept_ret 0 (some 7), SEv.fork 7 55,
       SEv.destroy 7, SEv.test true, SEv.accept_call, SEv.stop, SEv.accept_ret (-1) none,
       SEv.test false, SEv.shutting_down, SEv.destroy 1] ++ SEv.kill [55] :: [SEv.ret 0] := by
    decide
  ⟨h, ((acceptor_shutdown_order 1 sched_graceful).2.2.2.2 _ _ _ h).1,
    ((acceptor_shutdown_order 1 sched_graceful).2.2.2.2 _ _ _ h).2.1⟩

/-- Counterexample to C7: the loop test reads `running = 1`, the stop signal
then clears the flag, and the acceptor still issues a `usrl_trans_accept`
call: an accept call follows the stop. -/
theorem acceptor_accepts_after_stop :
    run 1 Srv.init sched_race = [SEv.test true] ++ SEv.stop :: [SEv.accept_call] ∧
    acceptCalls [SEv.accept_call] = 1 := by
  decide

/-- C9 (failing input): `usrl_trans_accept` returns the handle `7` and `fork`
fails with `-1`.  The acceptor reports the failure and issues its next accept
without having destroyed the handle `7`; with a successful `fork` (pid `55`) on
the same inputs it destroys the handle before the next loop test. -/
theorem acceptor_leaks_handle_on_fork_failure :
    run 1 Srv.init sched_fork_fails =
      [SEv.test true, SEv.accept_call, SEv.accept_ret 0 (some 7), SEv.fork 7 (-1),
       SEv.perror, SEv.test true, SEv.accept_call] ∧
    SEv.destroy 7 ∉ run 1 Srv.init sched_fork_fails ∧
    (step 1 { running := true, pc := Pc.fork 7, units := [] } (Inp.step 0 none 55)).2 =
      [SEv.fork 7 55, SEv.destroy 7] := by
  decide

end USRL
